import Mathlib

/-!
Shallow embedding of the core of `src/example/new_tools/peptide_distribution.py`
(repository PurcellLab/ProtPeptigram).

The embedded pieces are:
* `count_mutations`        — Hamming count over `zip` (source lines 43–45);
* `find_peptide_positions` — sliding-window approximate search (lines 47–70),
  the spec's SequenceMatcher `findOccurrences`;
* `collect_matches` / `all_matches` — the aggregation loop and the
  sort-by-start in `main` (lines 252–264), the spec's MatchAggregator;
* `sorted_matches` and the row-assignment loop of `create_plot`
  (lines 117–143), the spec's RowPacker.  The Python code fixes
  `max_rows = 2` and the inter-peptide gap `10` as literals; the packer here
  takes them as parameters (`code_max_rows` / `code_min_gap` record the
  literal values), matching the spec's LayoutConfig quantification.

Strings are modelled as `List Char`; the mutation budget is `Int` because the
Python `--mutations` argument is an arbitrary (possibly negative) int.
Occurrence positions are 1-based `Nat` as in the source; the packer works
with 0-based positions as `Int`, since Python computes `end - 1` (which is
`-1` for a zero-length occurrence) without truncation.
-/

namespace PeptideDistribution

/-- Source `count_mutations(seq1, seq2)`:
`sum(a != b for a, b in zip(seq1, seq2))`. -/
def count_mutations (seq1 seq2 : List Char) : Nat :=
  (seq1.zip seq2).countP (fun p => p.1 != p.2)

/-- One element of the `positions` list built by `find_peptide_positions`:
the dict `{'start': i+1, 'end': i+peptide_len, 'mutations': m, 'sequence': s}`.
The Python key `end` is a Lean keyword, hence the field name `endPos`. -/
structure Match where
  start : Nat
  endPos : Nat
  mutations : Nat
  sequence : List Char
  deriving Repr, DecidableEq

/-- The window `protein_seq[i : i+len]` read by `find_peptide_positions`
line 58 (`substring = protein_seq[i:i+peptide_len]`). -/
def substring_at (protein_seq : List Char) (i len : Nat) : List Char :=
  (protein_seq.drop i).take len

/-- Source `find_peptide_positions(peptide, protein_seq, mutations_allowed)`
(lines 47–70): return early if the peptide is longer than the protein,
otherwise slide a window of width `len(peptide)` over every start offset
`i in range(len(protein_seq) - peptide_len + 1)` and keep the offsets whose
mutation count is within budget.  The Python locals `substring` and
`mutations` are written out via `substring_at` / `count_mutations`. -/
def find_peptide_positions (peptide protein_seq : List Char)
    (mutations_allowed : Int) : List Match :=
  if peptide.length > protein_seq.length then []
  else
    (List.range (protein_seq.length - peptide.length + 1)).filterMap (fun i =>
      if (count_mutations peptide (substring_at protein_seq i peptide.length) : Int)
          ≤ mutations_allowed then
        some { start := i + 1, endPos := i + peptide.length,
               mutations := count_mutations peptide (substring_at protein_seq i peptide.length),
               sequence := substring_at protein_seq i peptide.length }
      else none)

/-- A `Match` tagged with its source peptide, as built in `main`
(line 258: `{'peptide': peptide, **match}`). -/
structure TaggedMatch where
  peptide : List Char
  start : Nat
  endPos : Nat
  mutations : Nat
  sequence : List Char
  deriving Repr, DecidableEq

/-- Tag one `Match` with the peptide it came from. -/
def tag (pep : List Char) (m : Match) : TaggedMatch :=
  { peptide := pep, start := m.start, endPos := m.endPos,
    mutations := m.mutations, sequence := m.sequence }

/-- The aggregation loop of `main` (lines 252–261): run the matcher for every
peptide against the protein and concatenate all tagged results. -/
def collect_matches (peptides : List (List Char)) (protein : List Char)
    (budget : Int) : List TaggedMatch :=
  (peptides.map (fun pep =>
    (find_peptide_positions pep protein budget).map (tag pep))).flatten

/-- Sorting in `main` line 264: `all_matches.sort(key=lambda x: x['start'])`
(Python `sort` is stable, as is `List.mergeSort`). -/
def all_matches (peptides : List (List Char)) (protein : List Char)
    (budget : Int) : List TaggedMatch :=
  (collect_matches peptides protein budget).mergeSort
    (fun a b => a.start ≤ b.start)

/-- The two-key sort of `create_plot` line 122:
`sorted(peptide_matches, key=lambda x: (x['start'], x['end'] - x['start']))` —
the two-key comparator, start ascending then length ascending. -/
def sorted_matches (ms : List TaggedMatch) : List TaggedMatch :=
  ms.mergeSort (fun a b =>
    decide (a.start < b.start ∨
      (a.start = b.start ∧ a.endPos - a.start ≤ b.endPos - b.start)))

/-- The row-scan of `create_plot` lines 131–137: walk the
`row_end_positions` list in index order and return the first index whose
recorded end leaves a gap of more than `min_gap` before `start_pos`
(`if start_pos > row_end_positions[row_idx] + 10: ... break`). -/
def find_gap_row (start_pos min_gap : Int) : List Int → Option Nat
  | [] => none
  | e :: rest =>
      if start_pos > e + min_gap then some 0
      else (find_gap_row start_pos min_gap rest).map (· + 1)

/-- Helper for `argmin_idx`: carries the best index/value seen so far;
a later element replaces the best only when strictly smaller, exactly as
Python `min` keeps the first element attaining the minimum. -/
def argmin_go (bi : Nat) (bv : Int) (i : Nat) : List Int → Nat
  | [] => bi
  | x :: xs => if x < bv then argmin_go i x (i + 1) xs else argmin_go bi bv (i + 1) xs

/-- The argmin of `create_plot` line 141:
`min(range(max_rows), key=lambda i: row_end_positions[i])` — the first index
holding the minimal recorded end. (On `[]`, where Python `min` raises, this
total model returns `0`; that case is never reached with a positive row
count.) -/
def argmin_idx : List Int → Nat
  | [] => 0
  | x :: xs => argmin_go 0 x 1 xs

/-- The packing state of `create_plot` lines 117–118: the per-row match
lists `rows` and the parallel `row_end_positions` array. -/
structure PackState where
  rows : List (List TaggedMatch)
  row_end_positions : List Int
  deriving Repr, DecidableEq

/-- One iteration of the assignment loop of `create_plot` lines 124–143 for a
single match: try the first row with enough gap (recording `end_pos` there),
otherwise overflow onto the row with the smallest recorded end (recording
`max(row_end_positions[best_row], end_pos)` there). -/
def assign_match (min_gap : Int) (st : PackState) (m : TaggedMatch) : PackState :=
  let start_pos : Int := (m.start : Int) - 1
  let end_pos : Int := (m.endPos : Int) - 1
  match find_gap_row start_pos min_gap st.row_end_positions with
  | some r =>
      { rows := st.rows.set r (st.rows.getD r [] ++ [m]),
        row_end_positions := st.row_end_positions.set r end_pos }
  | none =>
      let best_row := argmin_idx st.row_end_positions
      { rows := st.rows.set best_row (st.rows.getD best_row [] ++ [m]),
        row_end_positions :=
          st.row_end_positions.set best_row
            (max (st.row_end_positions.getD best_row 0) end_pos) }

/-- The full packing loop of `create_plot` lines 117–143: starting from
`max_rows` empty rows and end positions all `0`, assign each match in
list order. -/
def pack_rows (max_rows : Nat) (min_gap : Int) (ms : List TaggedMatch) :
    PackState :=
  ms.foldl (assign_match min_gap)
    { rows := List.replicate max_rows [],
      row_end_positions := List.replicate max_rows 0 }

/-- The literal `max_rows = 2` of `create_plot` line 114. -/
def code_max_rows : Nat := 2

/-- The literal gap `10` of `create_plot` line 133. -/
def code_min_gap : Int := 10

/-- The row layout `create_plot` actually computes for its input
`peptide_matches`: two-key sort, then packing with the literal
`max_rows = 2`, gap `10`. -/
def create_plot_rows (ms : List TaggedMatch) : PackState :=
  pack_rows code_max_rows code_min_gap (sorted_matches ms)

/-- Textbook Hamming distance between two equally long sequences, written
independently of `count_mutations` for the mismatch-correctness claim. -/
def hammingDist : List Char → List Char → Nat
  | x :: xs, y :: ys => (if x = y then 0 else 1) + hammingDist xs ys
  | _, _ => 0

/-- The two-key order of the aggregated collection: start ascending, and at
equal start the shorter span first. -/
def match_key_le (a b : TaggedMatch) : Prop :=
  a.start < b.start ∨
    (a.start = b.start ∧ a.endPos - a.start ≤ b.endPos - b.start)

/-- First occurrence of the spec's packing scenario: `start = 1` (a
length-10 span, `end = 10`). -/
def ex1 : TaggedMatch := ⟨['P'], 1, 10, 0, ['P']⟩

/-- Second occurrence of the spec's packing scenario: `start = 2`
(`end = 11`). -/
def ex2 : TaggedMatch := ⟨['Q'], 2, 11, 0, ['Q']⟩

/-- Third occurrence of the spec's packing scenario: `start = 50`
(`end = 59`). -/
def ex3 : TaggedMatch := ⟨['R'], 50, 59, 0, ['R']⟩

/-! Basic lemmas about the matcher. -/

/-- Unfolding `count_mutations` over a pair of leading characters. -/
theorem count_mutations_cons (a b : Char) (s t : List Char) :
    count_mutations (a :: s) (b :: t) =
      (if a = b then 0 else 1) + count_mutations s t := by
  by_cases hab : a = b <;>
    simp [count_mutations, List.countP_cons, hab, Nat.add_comm]

/-- The source function `count_mutations` computes the textbook Hamming distance. -/
theorem count_mutations_eq_hammingDist (s t : List Char) :
    count_mutations s t = hammingDist s t := by
  induction s generalizing t with
  | nil => cases t <;> simp [count_mutations, hammingDist]
  | cons a s ih =>
    cases t with
    | nil => simp [count_mutations, hammingDist]
    | cons b t =>
      rw [count_mutations_cons, ih]
      rfl

/-- On equally long sequences, zero mutations means equality. -/
theorem count_mutations_eq_zero_iff {s t : List Char}
    (h : s.length = t.length) : count_mutations s t = 0 ↔ s = t := by
  induction s generalizing t with
  | nil =>
    cases t with
    | nil => simp [count_mutations]
    | cons b t => simp at h
  | cons a s ih =>
    cases t with
    | nil => simp at h
    | cons b t =>
      have h' : s.length = t.length := by simpa using h
      rw [count_mutations_cons]
      by_cases hab : a = b
      · simp [hab, ih h']
      · simp only [if_neg hab]
        constructor
        · intro hc
          omega
        · intro hc
          exact absurd (List.cons.injEq .. ▸ hc).1 hab

/-- Inside the scan range the window has the full peptide length. -/
theorem substring_at_length {P : List Char} {i n : Nat}
    (h : i + n ≤ P.length) : (substring_at P i n).length = n := by
  simp only [substring_at, List.length_take, List.length_drop]
  omega

/-- Membership characterization of the matcher's output list. -/
theorem mem_find_iff {K P : List Char} {b : Int} {occ : Match} :
    occ ∈ find_peptide_positions K P b ↔
      ∃ i, i + K.length ≤ P.length ∧
        (count_mutations K (substring_at P i K.length) : Int) ≤ b ∧
        occ = { start := i + 1, endPos := i + K.length,
                mutations := count_mutations K (substring_at P i K.length),
                sequence := substring_at P i K.length } := by
  unfold find_peptide_positions
  by_cases hlen : K.length > P.length
  · simp only [if_pos hlen, List.not_mem_nil, false_iff, not_exists]
    intro i hi
    omega
  · simp only [if_neg hlen, List.mem_filterMap, List.mem_range]
    constructor
    · rintro ⟨i, hi, hfi⟩
      by_cases hc : (count_mutations K (substring_at P i K.length) : Int) ≤ b
      · rw [if_pos hc] at hfi
        exact ⟨i, by omega, hc, (Option.some_inj.mp hfi).symm⟩
      · rw [if_neg hc] at hfi
        exact absurd hfi (by simp)
    · rintro ⟨i, hi, hc, rfl⟩
      exact ⟨i, by omega, by rw [if_pos hc]⟩

/-- Start positions reported by the matcher, characterized by offset. -/
theorem mem_map_start_find_iff {K P : List Char} {b : Int} {s : Nat} :
    s ∈ (find_peptide_positions K P b).map Match.start ↔
      ∃ i, i + K.length ≤ P.length ∧
        (count_mutations K (substring_at P i K.length) : Int) ≤ b ∧
        s = i + 1 := by
  simp only [List.mem_map, mem_find_iff]
  constructor
  · rintro ⟨occ, ⟨i, hi, hc, rfl⟩, rfl⟩
    exact ⟨i, hi, hc, rfl⟩
  · rintro ⟨i, hi, hc, rfl⟩
    exact ⟨_, ⟨i, hi, hc, rfl⟩, rfl⟩

/-- A `filterMap` by an always-`some` function is a `map`. -/
theorem filterMap_some_eq_map {α β : Type} (g : α → β) (l : List α) :
    l.filterMap (fun a => some (g a)) = l.map g := by
  induction l with
  | nil => rfl
  | cons x xs ih => simp [List.filterMap_cons, ih]

/-! Claim theorems about the matcher. -/

/-- C1: at budget 0 the matcher reports exactly the 1-based positions where
the peptide occurs as an exact substring of the protein — a position is
reported iff it is at least 1, the window fits, and the peptide is a prefix
of the protein suffix starting there; no more, no fewer. -/
theorem find_zero_budget_exact (K P : List Char) (s : Nat) :
    s ∈ (find_peptide_positions K P 0).map Match.start ↔
      1 ≤ s ∧ s - 1 + K.length ≤ P.length ∧ K <+: P.drop (s - 1) := by
  rw [mem_map_start_find_iff]
  constructor
  · rintro ⟨i, hi, hc, rfl⟩
    have hc0 : count_mutations K (substring_at P i K.length) = 0 := by omega
    have hlen : (substring_at P i K.length).length = K.length :=
      substring_at_length hi
    have hKsub : K = substring_at P i K.length :=
      (count_mutations_eq_zero_iff hlen.symm).mp hc0
    refine ⟨by omega, by omega, ?_⟩
    rw [List.prefix_iff_eq_take]
    simpa [substring_at, Nat.add_sub_cancel] using hKsub
  · rintro ⟨hs1, hsl, hpre⟩
    refine ⟨s - 1, by omega, ?_, by omega⟩
    have hKsub : K = substring_at P (s - 1) K.length := by
      simpa [substring_at] using List.prefix_iff_eq_take.mp hpre
    rw [← hKsub, (count_mutations_eq_zero_iff rfl).mpr rfl]
    simp

/-- Witness for C1 at the spec's first scenario: protein `MKVLATG`,
peptide `KVL`, start position 2. -/
theorem find_zero_budget_exact_witness :
    2 ∈ (find_peptide_positions ['K', 'V', 'L']
          ['M', 'K', 'V', 'L', 'A', 'T', 'G'] 0).map Match.start ↔
      1 ≤ 2 ∧
        2 - 1 + (['K', 'V', 'L'] : List Char).length ≤
          (['M', 'K', 'V', 'L', 'A', 'T', 'G'] : List Char).length ∧
        (['K', 'V', 'L'] : List Char) <+:
          (['M', 'K', 'V', 'L', 'A', 'T', 'G'] : List Char).drop (2 - 1) :=
  find_zero_budget_exact ['K', 'V', 'L'] ['M', 'K', 'V', 'L', 'A', 'T', 'G'] 2

/-- C2: every reported occurrence carries a `mutations` field equal to the
Hamming distance between the peptide and the matched text, and that count
is within the given budget. -/
theorem find_mismatch_correct (K P : List Char) (b : Int) (occ : Match)
    (h : occ ∈ find_peptide_positions K P b) :
    occ.mutations = hammingDist K occ.sequence ∧ (occ.mutations : Int) ≤ b := by
  obtain ⟨i, hi, hc, rfl⟩ := mem_find_iff.mp h
  exact ⟨count_mutations_eq_hammingDist _ _, hc⟩

/-- Witness for C2 at peptide `AB`, protein `AAB`, budget 1, the occurrence
at start 1 (one mismatch against `AA`). -/
theorem find_mismatch_correct_witness :
    (⟨1, 2, 1, ['A', 'A']⟩ : Match) ∈
        find_peptide_positions ['A', 'B'] ['A', 'A', 'B'] 1 ∧
      ((⟨1, 2, 1, ['A', 'A']⟩ : Match).mutations =
          hammingDist ['A', 'B'] (⟨1, 2, 1, ['A', 'A']⟩ : Match).sequence ∧
        (((⟨1, 2, 1, ['A', 'A']⟩ : Match).mutations : Int) ≤ 1)) :=
  ⟨by decide, find_mismatch_correct ['A', 'B'] ['A', 'A', 'B'] 1 _ (by decide)⟩

/-- C6: raising the budget by one can only add reported start positions,
never remove one. -/
theorem find_budget_monotone (K P : List Char) (b : Int) (hb : 0 ≤ b) :
    (find_peptide_positions K P b).map Match.start ⊆
      (find_peptide_positions K P (b + 1)).map Match.start := by
  intro s hs
  obtain ⟨i, hi, hc, rfl⟩ := mem_map_start_find_iff.mp hs
  exact mem_map_start_find_iff.mpr ⟨i, hi, by omega, rfl⟩

/-- Witness for C6 at peptide `A`, protein `AB`, budget 0. -/
theorem find_budget_monotone_witness :
    (0 : Int) ≤ 0 ∧
      (find_peptide_positions ['A'] ['A', 'B'] 0).map Match.start ⊆
        (find_peptide_positions ['A'] ['A', 'B'] (0 + 1)).map Match.start :=
  ⟨by decide, find_budget_monotone ['A'] ['A', 'B'] 0 (by decide)⟩

/-- C7 fails as stated: the empty peptide is accepted by the matcher and
yields occurrences with `end = start - 1 < start`, breaking the claimed
`start ≤ end` bound. -/
theorem position_bounds_cex :
    ∃ occ, occ ∈ find_peptide_positions [] ['A'] 0 ∧ occ.endPos < occ.start :=
  ⟨⟨1, 0, 0, []⟩, by decide, by decide⟩

/-- C7 amended: for a non-empty peptide, every occurrence satisfies
`1 ≤ start ≤ end ≤ length(protein)` and spans exactly the peptide length. -/
theorem position_bounds (K P : List Char) (b : Int) (occ : Match)
    (hK : K ≠ []) (h : occ ∈ find_peptide_positions K P b) :
    1 ≤ occ.start ∧ occ.start ≤ occ.endPos ∧ occ.endPos ≤ P.length ∧
      occ.endPos + 1 - occ.start = K.length := by
  obtain ⟨i, hi, hc, rfl⟩ := mem_find_iff.mp h
  have hKlen : 0 < K.length := List.length_pos.mpr hK
  dsimp only
  omega

/-- Witness for the amended C7 at peptide `A`, protein `A`, budget 0. -/
theorem position_bounds_witness :
    (['A'] : List Char) ≠ [] ∧
      (1 ≤ (⟨1, 1, 0, ['A']⟩ : Match).start ∧
        (⟨1, 1, 0, ['A']⟩ : Match).start ≤ (⟨1, 1, 0, ['A']⟩ : Match).endPos ∧
        (⟨1, 1, 0, ['A']⟩ : Match).endPos ≤ (['A'] : List Char).length ∧
        (⟨1, 1, 0, ['A']⟩ : Match).endPos + 1 - (⟨1, 1, 0, ['A']⟩ : Match).start =
          (['A'] : List Char).length) :=
  ⟨by decide, position_bounds ['A'] ['A'] 0 _ (by decide) (by decide)⟩

/-- C8: a peptide longer than the protein yields the empty result (no
error is signalled — the function is total), and an empty peptide list
aggregates to the empty collection. -/
theorem empty_input_ok :
    (∀ (K P : List Char) (b : Int), P.length < K.length →
        find_peptide_positions K P b = []) ∧
    (∀ (P : List Char) (b : Int), all_matches [] P b = []) := by
  constructor
  · intro K P b h
    unfold find_peptide_positions
    rw [if_pos (by omega)]
  · intro P b
    simp [all_matches, collect_matches]

/-- Witness for C8: peptide `AB` against the single-residue protein `A`. -/
theorem empty_input_ok_witness :
    (['A'] : List Char).length < (['A', 'B'] : List Char).length ∧
      find_peptide_positions ['A', 'B'] ['A'] 0 = [] :=
  ⟨by decide, empty_input_ok.1 ['A', 'B'] ['A'] 0 (by decide)⟩

/-- C9 fails as stated: at the claimed-fatal input `budget = -1` the code
raises nothing — matching runs to completion and returns the ordinary
empty result, both for a single peptide and for the whole aggregation
(there is no ConfigurationError anywhere in the source, and `max_rows` is
the literal `2`, never ≤ 0). -/
theorem config_error_cex :
    find_peptide_positions ['A'] ['A'] (-1) = [] ∧
      all_matches [['A']] ['A'] (-1) = [] := by
  have h1 : find_peptide_positions ['A'] ['A'] (-1) = [] := by decide
  exact ⟨h1, by simp [all_matches, collect_matches, h1]⟩

/-- C9 amended: a negative budget is not rejected; the mismatch test
`mutations <= mutations_allowed` simply never passes, so the matcher
returns the empty list normally. -/
theorem negative_budget_empty (K P : List Char) (b : Int) (h : b < 0) :
    find_peptide_positions K P b = [] := by
  unfold find_peptide_positions
  by_cases hlen : K.length > P.length
  · rw [if_pos hlen]
  · rw [if_neg hlen, List.filterMap_eq_nil_iff]
    intro i hi
    rw [if_neg (by omega)]

/-- Witness for the amended C9 at budget `-1`. -/
theorem negative_budget_empty_witness :
    (-1 : Int) < 0 ∧ find_peptide_positions ['A'] ['A'] (-1) = [] :=
  ⟨by decide, negative_budget_empty ['A'] ['A'] (-1) (by decide)⟩

/-- C10: on the empty peptide the matcher emits one occurrence per offset
`0 ≤ i ≤ length(protein)` — `length(P) + 1` of them — each with
`start = i + 1`, `end = i`, zero mutations and empty matched text, so every
such occurrence has `end = start - 1`. -/
theorem empty_peptide_occurrences (P : List Char) (b : Int) (hb : 0 ≤ b) :
    find_peptide_positions [] P b =
        (List.range (P.length + 1)).map
          (fun i => { start := i + 1, endPos := i, mutations := 0,
                      sequence := [] }) ∧
      ∀ occ ∈ find_peptide_positions [] P b, occ.endPos + 1 = occ.start := by
  have hmain : find_peptide_positions [] P b =
      (List.range (P.length + 1)).map
        (fun i => { start := i + 1, endPos := i, mutations := 0,
                    sequence := [] }) := by
    unfold find_peptide_positions
    rw [if_neg (by simp)]
    simp only [List.length_nil, Nat.sub_zero, Nat.add_zero]
    have hfn : ∀ i : Nat,
        (if (count_mutations [] (substring_at P i 0) : Int) ≤ b then
            some ({ start := i + 1, endPos := i, mutations :=
                      count_mutations [] (substring_at P i 0),
                    sequence := substring_at P i 0 } : Match)
          else none) =
          some ({ start := i + 1, endPos := i, mutations := 0,
                  sequence := [] } : Match) := by
      intro i
      have hsub : substring_at P i 0 = [] := by simp [substring_at]
      have hcm : count_mutations [] (substring_at P i 0) = 0 := by
        simp [count_mutations]
      rw [if_pos (by omega)]
      simp [hsub, count_mutations]
    calc (List.range (P.length + 1)).filterMap (fun i =>
            if (count_mutations [] (substring_at P i 0) : Int) ≤ b then
              some ({ start := i + 1, endPos := i, mutations :=
                        count_mutations [] (substring_at P i 0),
                      sequence := substring_at P i 0 } : Match)
            else none)
        = (List.range (P.length + 1)).filterMap (fun i =>
            some ({ start := i + 1, endPos := i, mutations := 0,
                    sequence := [] } : Match)) := by
            exact List.filterMap_congr (fun i _ => hfn i)
      _ = (List.range (P.length + 1)).map
            (fun i => { start := i + 1, endPos := i, mutations := 0,
                        sequence := [] }) := by
            exact filterMap_some_eq_map _ _
  refine ⟨hmain, ?_⟩
  intro occ hocc
  rw [hmain] at hocc
  obtain ⟨i, hi, rfl⟩ := List.mem_map.mp hocc
  rfl

/-- Witness for C10 at protein `AB`, budget 0. -/
theorem empty_peptide_occurrences_witness :
    (0 : Int) ≤ 0 ∧
      (find_peptide_positions [] ['A', 'B'] 0 =
          (List.range ((['A', 'B'] : List Char).length + 1)).map
            (fun i => { start := i + 1, endPos := i, mutations := 0,
                        sequence := [] }) ∧
        ∀ occ ∈ find_peptide_positions [] ['A', 'B'] 0,
          occ.endPos + 1 = occ.start) :=
  ⟨by decide, empty_peptide_occurrences ['A', 'B'] 0 (by decide)⟩

/-! Lemmas about the row-scan and the argmin of `create_plot`. -/

/-- A row index found by the gap scan is in range. -/
theorem find_gap_row_lt {sp g : Int} :
    ∀ {l : List Int} {r : Nat}, find_gap_row sp g l = some r → r < l.length := by
  intro l
  induction l with
  | nil => intro r h; exact absurd h (by simp [find_gap_row])
  | cons e rest ih =>
    intro r h
    rw [find_gap_row] at h
    split at h
    · cases h
      simp
    · obtain ⟨r', hr', rfl⟩ := Option.map_eq_some'.mp h
      have := ih hr'
      simp
      omega

/-- The gap scan returns the first in-range index whose recorded end leaves
more than `g` of space before `sp`. -/
theorem find_gap_row_eq_some_of {sp g : Int} :
    ∀ {l : List Int} {r : Nat}, r < l.length →
      sp > l.getD r 0 + g →
      (∀ j, j < r → ¬(sp > l.getD j 0 + g)) →
      find_gap_row sp g l = some r := by
  intro l
  induction l with
  | nil => intro r hr _ _; exact absurd hr (by simp)
  | cons e rest ih =>
    intro r hr hgap hfirst
    cases r with
    | zero =>
      rw [find_gap_row, if_pos (by simpa using hgap)]
    | succ r' =>
      have h0 : ¬(sp > e + g) := by simpa using hfirst 0 (Nat.succ_pos r')
      rw [find_gap_row, if_neg h0,
        ih (by simpa using hr) (by simpa using hgap)
          (fun j hj => by simpa using hfirst (j + 1) (by omega))]
      rfl

/-- The gap scan fails exactly when no in-range row leaves enough space. -/
theorem find_gap_row_eq_none_of {sp g : Int} :
    ∀ {l : List Int}, (∀ j, j < l.length → ¬(sp > l.getD j 0 + g)) →
      find_gap_row sp g l = none := by
  intro l
  induction l with
  | nil => intro _; rfl
  | cons e rest ih =>
    intro h
    rw [find_gap_row, if_neg (by simpa using h 0 (by simp)),
      ih (fun j hj => by simpa using h (j + 1) (by simpa using hj))]
    rfl

/-- Full behaviour of the running-minimum helper: either no element beats
the carried best (result `bi`), or the result points at the first element
attaining the strict minimum below the carried best. -/
theorem argmin_go_spec :
    ∀ (l : List Int) (bi : Nat) (bv : Int) (i : Nat),
      (argmin_go bi bv i l = bi ∧ ∀ k, k < l.length → bv ≤ l.getD k 0) ∨
      (∃ k, k < l.length ∧ argmin_go bi bv i l = i + k ∧ l.getD k 0 < bv ∧
        (∀ j, j < l.length → l.getD k 0 ≤ l.getD j 0) ∧
        (∀ j, j < k → l.getD k 0 < l.getD j 0)) := by
  intro l
  induction l with
  | nil =>
    intro bi bv i
    left
    exact ⟨rfl, fun k hk => absurd hk (by simp)⟩
  | cons x xs ih =>
    intro bi bv i
    by_cases hx : x < bv
    · rcases ih i x (i + 1) with ⟨heq, hall⟩ | ⟨k, hk, heq, hlt, hle, hstrict⟩
      · right
        refine ⟨0, by simp, ?_, by simpa using hx, ?_, ?_⟩
        · rw [argmin_go, if_pos hx, heq]
          omega
        · intro j hj
          cases j with
          | zero => simp
          | succ j' =>
            simp only [List.getD_cons_zero, List.getD_cons_succ]
            exact hall j' (by simpa using hj)
        · intro j hj
          exact absurd hj (by simp)
      · right
        refine ⟨k + 1, by simpa using hk, ?_, ?_, ?_, ?_⟩
        · rw [argmin_go, if_pos hx, heq]
          omega
        · simp only [List.getD_cons_succ]
          exact lt_trans hlt hx
        · intro j hj
          cases j with
          | zero =>
            simp only [List.getD_cons_zero, List.getD_cons_succ]
            exact le_of_lt hlt
          | succ j' =>
            simp only [List.getD_cons_succ]
            exact hle j' (by simpa using hj)
        · intro j hj
          cases j with
          | zero =>
            simp only [List.getD_cons_zero, List.getD_cons_succ]
            exact hlt
          | succ j' =>
            simp only [List.getD_cons_succ]
            exact hstrict j' (by omega)
    · rcases ih bi bv (i + 1) with ⟨heq, hall⟩ | ⟨k, hk, heq, hlt, hle, hstrict⟩
      · left
        refine ⟨?_, ?_⟩
        · rw [argmin_go, if_neg hx, heq]
        · intro k hk
          cases k with
          | zero => simpa using le_of_not_lt hx
          | succ k' =>
            simp only [List.getD_cons_succ]
            exact hall k' (by simpa using hk)
      · right
        refine ⟨k + 1, by simpa using hk, ?_, ?_, ?_, ?_⟩
        · rw [argmin_go, if_neg hx, heq]
          omega
        · simp only [List.getD_cons_succ]
          exact hlt
        · intro j hj
          cases j with
          | zero =>
            simp only [List.getD_cons_zero, List.getD_cons_succ]
            exact le_trans (le_of_lt hlt) (le_of_not_lt hx)
          | succ j' =>
            simp only [List.getD_cons_succ]
            exact hle j' (by simpa using hj)
        · intro j hj
          cases j with
          | zero =>
            simp only [List.getD_cons_zero, List.getD_cons_succ]
            exact lt_of_lt_of_le hlt (le_of_not_lt hx)
          | succ j' =>
            simp only [List.getD_cons_succ]
            exact hstrict j' (by omega)

/-- On a non-empty list, `argmin_idx` is in range, attains the minimum, and
is the first index to do so. -/
theorem argmin_idx_spec (l : List Int) (hne : l ≠ []) :
    argmin_idx l < l.length ∧
      (∀ j, j < l.length → l.getD (argmin_idx l) 0 ≤ l.getD j 0) ∧
      (∀ j, j < argmin_idx l → l.getD (argmin_idx l) 0 < l.getD j 0) := by
  cases l with
  | nil => exact absurd rfl hne
  | cons x xs =>
    have hidx : argmin_idx (x :: xs) = argmin_go 0 x 1 xs := rfl
    rcases argmin_go_spec xs 0 x 1 with ⟨heq, hall⟩ | ⟨k, hk, heq, hlt, hle, hstrict⟩
    · rw [hidx, heq]
      refine ⟨by simp, ?_, ?_⟩
      · intro j hj
        cases j with
        | zero => simp
        | succ j' =>
          simp only [List.getD_cons_zero, List.getD_cons_succ]
          exact hall j' (by simpa using hj)
      · intro j hj
        exact absurd hj (by simp)
    · rw [hidx, heq, show 1 + k = k + 1 from by omega]
      refine ⟨by simpa using hk, ?_, ?_⟩
      · intro j hj
        cases j with
        | zero =>
          simp only [List.getD_cons_zero, List.getD_cons_succ]
          exact le_of_lt hlt
        | succ j' =>
          simp only [List.getD_cons_succ]
          exact hle j' (by simpa using hj)
      · intro j hj
        cases j with
        | zero =>
          simp only [List.getD_cons_zero, List.getD_cons_succ]
          exact hlt
        | succ j' =>
          simp only [List.getD_cons_succ]
          exact hstrict j' (by omega)

/-- The first-minimum property determines `argmin_idx` uniquely. -/
theorem argmin_idx_eq_of (l : List Int) (b : Nat) (hb : b < l.length)
    (hmin : ∀ j, j < l.length → l.getD b 0 ≤ l.getD j 0)
    (hfirst : ∀ j, j < b → l.getD b 0 < l.getD j 0) : argmin_idx l = b := by
  have hne : l ≠ [] := by
    intro h
    rw [h] at hb
    exact absurd hb (by simp)
  obtain ⟨ha, hamin, hafirst⟩ := argmin_idx_spec l hne
  rcases lt_trichotomy (argmin_idx l) b with h | h | h
  · exact absurd (hamin b hb) (not_le_of_lt (hfirst _ h))
  · exact h
  · exact absurd (hmin _ ha) (not_le_of_lt (hafirst b h))

/-! Permutation bookkeeping for the packing loop. -/

/-- Appending an element to one row permutes the flattened rows by one
appended element. -/
theorem flatten_set_append {α : Type} :
    ∀ (rows : List (List α)) (r : Nat) (m : α), r < rows.length →
      ((rows.set r (rows.getD r [] ++ [m])).flatten).Perm (rows.flatten ++ [m]) := by
  intro rows
  induction rows with
  | nil => intro r m hr; exact absurd hr (by simp)
  | cons hd tl ih =>
    intro r m hr
    cases r with
    | zero =>
      simp only [List.set_cons_zero, List.getD_cons_zero, List.flatten_cons,
        List.append_assoc]
      exact (@List.perm_append_comm _ [m] tl.flatten).append_left hd
    | succ r' =>
      simp only [List.set_cons_succ, List.getD_cons_succ, List.flatten_cons,
        List.append_assoc]
      exact (ih r' m (by simpa using hr)).append_left hd

/-- Behaviour of `assign_match` when the gap scan finds a row: append there and record
`end_pos` on that row. -/
theorem assign_match_of_found {g : Int} {st : PackState} {m : TaggedMatch}
    {r : Nat}
    (hfind : find_gap_row ((m.start : Int) - 1) g st.row_end_positions =
      some r) :
    assign_match g st m =
      { rows := st.rows.set r (st.rows.getD r [] ++ [m]),
        row_end_positions :=
          st.row_end_positions.set r ((m.endPos : Int) - 1) } := by
  unfold assign_match
  dsimp only
  rw [hfind]

/-- Behaviour of `assign_match` when no row has enough gap: append to the first row of
minimal recorded end and record the max of old end and `end_pos` there. -/
theorem assign_match_of_overflow {g : Int} {st : PackState} {m : TaggedMatch}
    (hfind : find_gap_row ((m.start : Int) - 1) g st.row_end_positions =
      none) :
    assign_match g st m =
      { rows := st.rows.set (argmin_idx st.row_end_positions)
          (st.rows.getD (argmin_idx st.row_end_positions) [] ++ [m]),
        row_end_positions :=
          st.row_end_positions.set (argmin_idx st.row_end_positions)
            (max (st.row_end_positions.getD (argmin_idx st.row_end_positions) 0)
              ((m.endPos : Int) - 1)) } := by
  unfold assign_match
  dsimp only
  rw [hfind]

/-- One assignment step keeps both state lists at their lengths. -/
theorem assign_match_lengths (g : Int) (st : PackState) (m : TaggedMatch) :
    (assign_match g st m).rows.length = st.rows.length ∧
      (assign_match g st m).row_end_positions.length =
        st.row_end_positions.length := by
  rcases hfind : find_gap_row ((m.start : Int) - 1) g st.row_end_positions with
    _ | r
  · rw [assign_match_of_overflow hfind]
    simp
  · rw [assign_match_of_found hfind]
    simp

/-- One assignment step appends the match to exactly one row: flattening
the rows afterwards is a permutation of the old flattening plus the match. -/
theorem assign_match_perm (g : Int) (st : PackState) (m : TaggedMatch)
    (hlen : st.rows.length = st.row_end_positions.length)
    (hpos : 0 < st.row_end_positions.length) :
    ((assign_match g st m).rows.flatten).Perm (st.rows.flatten ++ [m]) := by
  rcases hfind : find_gap_row ((m.start : Int) - 1) g st.row_end_positions with
    _ | r
  · rw [assign_match_of_overflow hfind]
    have hne : st.row_end_positions ≠ [] := by
      intro h
      rw [h] at hpos
      exact absurd hpos (by simp)
    have hb : argmin_idx st.row_end_positions < st.rows.length :=
      hlen ▸ (argmin_idx_spec _ hne).1
    exact flatten_set_append st.rows (argmin_idx st.row_end_positions) m hb
  · rw [assign_match_of_found hfind]
    have hr : r < st.rows.length := hlen ▸ find_gap_row_lt hfind
    exact flatten_set_append st.rows r m hr

/-- Folding the assignment loop over a match list preserves the state-list
lengths and appends exactly the processed matches to the flattened rows. -/
theorem pack_fold_invariant (g : Int) :
    ∀ (ms : List TaggedMatch) (st : PackState),
      st.rows.length = st.row_end_positions.length →
      0 < st.row_end_positions.length →
      ((ms.foldl (assign_match g) st).rows.length = st.rows.length ∧
        (ms.foldl (assign_match g) st).row_end_positions.length =
          st.row_end_positions.length) ∧
      ((ms.foldl (assign_match g) st).rows.flatten).Perm
        (st.rows.flatten ++ ms) := by
  intro ms
  induction ms with
  | nil =>
    intro st hlen hpos
    exact ⟨⟨rfl, rfl⟩, by simp⟩
  | cons m ms ih =>
    intro st hlen hpos
    have hstep := assign_match_lengths g st m
    have hlen' : (assign_match g st m).rows.length =
        (assign_match g st m).row_end_positions.length := by
      rw [hstep.1, hstep.2]
      exact hlen
    have hpos' : 0 < (assign_match g st m).row_end_positions.length := by
      rw [hstep.2]
      exact hpos
    obtain ⟨⟨hl1, hl2⟩, hperm⟩ := ih (assign_match g st m) hlen' hpos'
    refine ⟨⟨by rw [List.foldl_cons, hl1, hstep.1],
      by rw [List.foldl_cons, hl2, hstep.2]⟩, ?_⟩
    rw [List.foldl_cons]
    refine hperm.trans ?_
    refine ((assign_match_perm g st m hlen hpos).append_right ms).trans ?_
    rw [List.append_assoc, List.singleton_append]

/-- C4: for any input collection and any positive row budget, the packer —
run, as in `create_plot`, on the two-key-sorted input — places every
occurrence in exactly one row (the flattened rows are a permutation of the
input: no omissions, no duplicates) and the number of rows is exactly
`max_rows`. -/
theorem pack_rows_complete (ms : List TaggedMatch) (max_rows : Nat)
    (min_gap : Int) (hpos : 0 < max_rows) :
    ((pack_rows max_rows min_gap (sorted_matches ms)).rows.flatten).Perm ms ∧
      (pack_rows max_rows min_gap (sorted_matches ms)).rows.length =
        max_rows := by
  have hinit : (List.replicate max_rows ([] : List TaggedMatch)).flatten =
      ([] : List TaggedMatch) := by
    rw [List.flatten_eq_nil_iff]
    intro l hl
    exact (List.eq_of_mem_replicate hl)
  obtain ⟨⟨hl1, _⟩, hperm⟩ := pack_fold_invariant min_gap (sorted_matches ms)
    ⟨List.replicate max_rows [], List.replicate max_rows 0⟩
    (by simp) (by simpa using hpos)
  refine ⟨?_, by simpa using hl1⟩
  refine hperm.trans ?_
  rw [show (⟨List.replicate max_rows [], List.replicate max_rows 0⟩ :
        PackState).rows = List.replicate max_rows [] from rfl,
    hinit, List.nil_append]
  exact List.mergeSort_perm ms _

/-- Witness for C4 at a one-element input with the source's `max_rows = 2`
and gap `10`. -/
theorem pack_rows_complete_witness :
    0 < 2 ∧
      (((pack_rows 2 10 (sorted_matches [ex1])).rows.flatten).Perm [ex1] ∧
        (pack_rows 2 10 (sorted_matches [ex1])).rows.length = 2) :=
  ⟨by decide, pack_rows_complete [ex1] 2 10 (by decide)⟩

/-- C3: one packing step follows the source's rule exactly.  (1) If `r` is
the first in-range row with `start - 1 > rowEnd[r] + minGap` (0-based), the
occurrence goes to row `r` and that row's end becomes `end - 1`.  (2) If no
row has enough gap, the occurrence goes to the first row holding the
minimal recorded end, whose end becomes `max(rowEnd, end - 1)`.  (3) On the
spec's scenario — occurrences starting at 1, 2, 50 with `maxRows = 2`,
`minGap = 10` — the first and third land in row 0 and the second in row 1. -/
theorem rowpacker_rule_and_example :
    (∀ (min_gap : Int) (st : PackState) (m : TaggedMatch) (r : Nat),
      r < st.row_end_positions.length →
      (m.start : Int) - 1 > st.row_end_positions.getD r 0 + min_gap →
      (∀ j, j < r →
        ¬((m.start : Int) - 1 > st.row_end_positions.getD j 0 + min_gap)) →
      assign_match min_gap st m =
        { rows := st.rows.set r (st.rows.getD r [] ++ [m]),
          row_end_positions :=
            st.row_end_positions.set r ((m.endPos : Int) - 1) }) ∧
    (∀ (min_gap : Int) (st : PackState) (m : TaggedMatch) (b : Nat),
      (∀ j, j < st.row_end_positions.length →
        ¬((m.start : Int) - 1 > st.row_end_positions.getD j 0 + min_gap)) →
      b < st.row_end_positions.length →
      (∀ j, j < st.row_end_positions.length →
        st.row_end_positions.getD b 0 ≤ st.row_end_positions.getD j 0) →
      (∀ j, j < b →
        st.row_end_positions.getD b 0 < st.row_end_positions.getD j 0) →
      assign_match min_gap st m =
        { rows := st.rows.set b (st.rows.getD b [] ++ [m]),
          row_end_positions := st.row_end_positions.set b
            (max (st.row_end_positions.getD b 0) ((m.endPos : Int) - 1)) }) ∧
    (create_plot_rows [ex1, ex2, ex3]).rows = [[ex1, ex3], [ex2]] := by
  refine ⟨?_, ?_, ?_⟩
  · intro min_gap st m r hr hgap hfirst
    exact assign_match_of_found (find_gap_row_eq_some_of hr hgap hfirst)
  · intro min_gap st m b hno hb hmin hfirst
    rw [assign_match_of_overflow (find_gap_row_eq_none_of hno),
      argmin_idx_eq_of _ b hb hmin hfirst]
  · have hsorted : sorted_matches [ex1, ex2, ex3] = [ex1, ex2, ex3] :=
      List.mergeSort_of_sorted (by decide)
    simp only [create_plot_rows, code_max_rows, code_min_gap]
    rw [hsorted]
    decide

/-- Witness for C3, part (1): from a fresh two-row state, the occurrence
starting at 50 satisfies the gap rule on row 0 and is assigned there. -/
theorem rowpacker_rule_witness :
    ((ex3.start : Int) - 1 >
        ((⟨[[], []], [0, 0]⟩ : PackState).row_end_positions.getD 0 0) + 10 ∧
      assign_match 10 ⟨[[], []], [0, 0]⟩ ex3 =
        { rows := (⟨[[], []], [0, 0]⟩ : PackState).rows.set 0
            ((⟨[[], []], [0, 0]⟩ : PackState).rows.getD 0 [] ++ [ex3]),
          row_end_positions :=
            (⟨[[], []], [0, 0]⟩ : PackState).row_end_positions.set 0
              ((ex3.endPos : Int) - 1) }) :=
  ⟨by decide,
    rowpacker_rule_and_example.1 10 ⟨[[], []], [0, 0]⟩ ex3 0
      (by decide) (by decide) (by decide)⟩

/-- C5: the aggregated collection, as handed onward to the packer, is
sorted by the two-key comparator — start ascending, and at equal start the
shorter span first. -/
theorem aggregate_sorted (peps : List (List Char)) (prot : List Char)
    (b : Int) :
    List.Pairwise match_key_le (sorted_matches (all_matches peps prot b)) := by
  have htrans : ∀ a c d : TaggedMatch,
      (decide (a.start < c.start ∨
        (a.start = c.start ∧ a.endPos - a.start ≤ c.endPos - c.start))) = true →
      (decide (c.start < d.start ∨
        (c.start = d.start ∧ c.endPos - c.start ≤ d.endPos - d.start))) = true →
      (decide (a.start < d.start ∨
        (a.start = d.start ∧ a.endPos - a.start ≤ d.endPos - d.start))) = true := by
    intro a c d hac hcd
    simp only [decide_eq_true_eq] at *
    omega
  have htotal : ∀ a c : TaggedMatch,
      ((decide (a.start < c.start ∨
          (a.start = c.start ∧ a.endPos - a.start ≤ c.endPos - c.start))) ||
        (decide (c.start < a.start ∨
          (c.start = a.start ∧ c.endPos - c.start ≤ a.endPos - a.start)))) = true := by
    intro a c
    simp only [Bool.or_eq_true, decide_eq_true_eq]
    omega
  have h := List.sorted_mergeSort htrans htotal (all_matches peps prot b)
  exact h.imp (fun hab => by
    simpa [match_key_le] using of_decide_eq_true hab)

end PeptideDistribution
